import Mathlib

/-!
Shallow embedding of the AveragePrice NEAR contract
(src/smartcontract/src/lib.rs) and of the call-level service semantics.

Floating-point values (Rust f64, IEEE-754 binary64) are modelled by their
bit fields; arithmetic (addition, division) is modelled as the exact
dyadic-rational operation followed by round-to-nearest, ties-to-even,
which is what IEEE-754 requires of correctly rounded binary64 operations.
All definitions are executable with plain Nat and Int arithmetic so that
concrete computations reduce in the kernel.
-/

set_option maxRecDepth 100000
set_option exponentiation.threshold 5000

namespace AvgPrice

/-- An IEEE-754 binary64 value, by its bit fields: sign bit, 11-bit biased
exponent field, 52-bit fraction field. -/
structure F64 where
  sign : Bool
  ex : Nat
  frac : Nat
deriving DecidableEq

/-- Well-formedness of the bit fields: the exponent field fits in 11 bits
and the fraction field fits in 52 bits. -/
def WF (f : F64) : Prop := f.ex < 2048 ∧ f.frac < 2 ^ 52

instance (f : F64) : Decidable (WF f) := by unfold WF; infer_instance

/-- Positive zero. -/
def fzero : F64 := ⟨false, 0, 0⟩

/-- A quiet NaN bit pattern. -/
def fnan : F64 := ⟨false, 2047, 2 ^ 51⟩

/-- Rust f64 classification: NaN. -/
def is_nan (f : F64) : Bool := f.ex == 2047 && f.frac != 0

/-- Rust f64 classification: positive or negative infinity. -/
def is_infinite (f : F64) : Bool := f.ex == 2047 && f.frac == 0

/-- Rust f64 classification: positive or negative zero. -/
def is_zero (f : F64) : Bool := f.ex == 0 && f.frac == 0

/-- Rust f64 classification: subnormal. -/
def is_subnormal (f : F64) : Bool := f.ex == 0 && f.frac != 0

/-- Rust f64 classification: finite (normal, subnormal or zero). -/
def is_finite (f : F64) : Bool := f.ex != 2047

/-- Rust f64::is_normal: finite, nonzero and not subnormal, i.e. the
exponent field is neither all zeros nor all ones. -/
def is_normal (f : F64) : Bool := f.ex != 0 && f.ex != 2047

/-- One step of a binary ladder for floor-log2: add w to acc when
2 ^ (acc + w) still fits below n. -/
def lgAdd (n acc w : Nat) : Nat := if 2 ^ (acc + w) ≤ n then acc + w else acc

/-- Floor of log2 on Nat (0 for inputs 0 and 1), by a constant-depth
binary ladder valid for every n < 2 ^ 4096, far beyond any magnitude a
binary64 computation can produce. -/
def natLog2 (n : Nat) : Nat :=
  lgAdd n (lgAdd n (lgAdd n (lgAdd n (lgAdd n (lgAdd n (lgAdd n (lgAdd n
    (lgAdd n (lgAdd n (lgAdd n (lgAdd n 0 2048) 1024) 512) 256) 128) 64)
    32) 16) 8) 4) 2) 1

/-- Decides 2 ^ e ≤ n / d for positive naturals n, d and integer e. -/
def pow2le (e : ℤ) (n d : Nat) : Bool :=
  if 0 ≤ e then decide (2 ^ e.toNat * d ≤ n) else decide (d ≤ n * 2 ^ (-e).toNat)

/-- Floor of log2 of the positive rational n / d. -/
def floorLog2P (n d : Nat) : ℤ :=
  let e0 : ℤ := (natLog2 n : ℤ) - (natLog2 d : ℤ)
  if pow2le (e0 + 1) n d then e0 + 1
  else if pow2le e0 n d then e0
  else e0 - 1

/-- Rounds the positive rational n / d to the nearest binary64
(ties to even), returning a nonnegative float; underflows to +0,
overflows to +infinity. -/
def roundPos (n d : Nat) : F64 :=
  let e := floorLog2P n d
  let k : ℤ := max (e - 52) (-1074)
  let N : Nat := if 0 ≤ k then n else n * 2 ^ (-k).toNat
  let D : Nat := if 0 ≤ k then d * 2 ^ k.toNat else d
  let m0 := N / D
  let r := N % D
  let m := if D < 2 * r then m0 + 1
           else if 2 * r < D then m0
           else if m0 % 2 = 0 then m0 else m0 + 1
  let m2 := if m = 2 ^ 53 then 2 ^ 52 else m
  let k2 : ℤ := if m = 2 ^ 53 then k + 1 else k
  if m2 < 2 ^ 52 then ⟨false, 0, m2⟩
  else if 2047 ≤ k2 + 1075 then ⟨false, 2047, 0⟩
  else ⟨false, (k2 + 1075).toNat, m2 - 2 ^ 52⟩

/-- The exact signed integral significand of a finite float. -/
def mantissa (f : F64) : ℤ :=
  let m : ℤ := if f.ex = 0 then (f.frac : ℤ) else ((2 ^ 52 + f.frac : ℕ) : ℤ)
  if f.sign then -m else m

/-- The exponent of a finite float, so that its exact value is
mantissa * 2 ^ expo. -/
def expo (f : F64) : ℤ := if f.ex = 0 then -1074 else (f.ex : ℤ) - 1075

/-- Rounds the exact dyadic value m * 2 ^ e (m nonzero) to binary64. -/
def roundDyadic (m : ℤ) (e : ℤ) : F64 :=
  let n := m.natAbs
  let f := if 0 ≤ e then roundPos (n * 2 ^ e.toNat) 1 else roundPos n (2 ^ (-e).toNat)
  if m < 0 then ⟨true, f.ex, f.frac⟩ else f

/-- IEEE-754 binary64 addition, round-to-nearest ties-to-even: NaN and
infinity cases per the standard, finite case by rounding the exact sum.
An exact zero sum of finite operands is +0 unless both operands have the
sign bit set. -/
def fadd (a b : F64) : F64 :=
  if is_nan a || is_nan b then fnan
  else if is_infinite a then
    if is_infinite b && a.sign != b.sign then fnan else a
  else if is_infinite b then b
  else
    let e := min (expo a) (expo b)
    let s := mantissa a * ((2 ^ (expo a - e).toNat : ℕ) : ℤ)
      + mantissa b * ((2 ^ (expo b - e).toNat : ℕ) : ℤ)
    if s = 0 then ⟨a.sign && b.sign, 0, 0⟩
    else roundDyadic s e

/-- IEEE-754 binary64 division, round-to-nearest ties-to-even. -/
def fdiv (a b : F64) : F64 :=
  let sgn := a.sign != b.sign
  if is_nan a || is_nan b then fnan
  else if is_infinite a then
    if is_infinite b then fnan else ⟨sgn, 2047, 0⟩
  else if is_infinite b then ⟨sgn, 0, 0⟩
  else if is_zero b then
    if is_zero a then fnan else ⟨sgn, 2047, 0⟩
  else if is_zero a then ⟨sgn, 0, 0⟩
  else
    let e := expo a - expo b
    let n := (mantissa a).natAbs
    let d := (mantissa b).natAbs
    let f := if 0 ≤ e then roundPos (n * 2 ^ e.toNat) d else roundPos n (d * 2 ^ (-e).toNat)
    ⟨sgn, f.ex, f.frac⟩

/-- Rust u64-to-f64 cast (rounds to nearest; exact for small values). -/
def natToF64 (n : Nat) : F64 := if n = 0 then fzero else roundPos n 1

/-- Rust Iterator::sum for f64: left fold of + starting from 0.0.
Models self.records.iter().sum() over the Vector, which yields the
elements in index order. -/
def fsum (l : List F64) : F64 := l.foldl fadd fzero

/-- The constant LAST_NUMBERS_FOR_AVERAGE (the window size K). -/
def LAST_NUMBERS_FOR_AVERAGE : Nat := 5

/-- The three distinct abort messages the contract can raise via
env::panic or expect: the validation rejection in set_last_price, the
no-records abort in get_average_price, and the defensive out-of-bounds
expect on Vector::get. -/
inductive AbortMsg
  | rejection
  | noRecords
  | outOfRange
deriving DecidableEq

/-- Contract state: the persistent Vector of recorded f64 samples,
modelled as a list in index order. -/
structure AveragePrice where
  records : List F64
deriving DecidableEq

/-- Embedding of set_last_price: panic with the rejection message when
the price is not normal, otherwise push the price onto the records
Vector. env::panic aborts the whole call, so it is modelled as an
Except error carrying no state. -/
def set_last_price (st : AveragePrice) (price : F64) : Except AbortMsg AveragePrice :=
  if !(is_normal price) then .error .rejection
  else .ok ⟨st.records ++ [price]⟩

/-- Embedding of the for-loop in the else branch of get_average_price:
for index in i..(i+c), look the index up with Vector::get (Option), abort
with the out-of-bounds message on None, and accumulate with add_assign. -/
def sumIdx (recs : List F64) : Nat → Nat → F64 → Except AbortMsg F64
  | _, 0, acc => .ok acc
  | i, c + 1, acc =>
    match recs[i]? with
    | none => .error .outOfRange
    | some v => sumIdx recs (i + 1) c (fadd acc v)

/-- Embedding of get_average_price. When fewer than
LAST_NUMBERS_FOR_AVERAGE records exist, sum them all and abort with the
no-records message when that sum compares equal to 0.0, else divide by
the length cast to f64; otherwise sum the indices from
len - LAST_NUMBERS_FOR_AVERAGE up to len and divide by
LAST_NUMBERS_FOR_AVERAGE cast to f64. The Some wrapper of the Rust
return value is the .ok constructor. -/
def get_average_price (st : AveragePrice) : Except AbortMsg F64 :=
  if st.records.length < LAST_NUMBERS_FOR_AVERAGE then
    let sum := fsum st.records
    if is_zero sum then .error .noRecords
    else .ok (fdiv sum (natToF64 st.records.length))
  else
    match sumIdx st.records (st.records.length - LAST_NUMBERS_FOR_AVERAGE)
        LAST_NUMBERS_FOR_AVERAGE fzero with
    | .error e => .error e
    | .ok sum => .ok (fdiv sum (natToF64 LAST_NUMBERS_FOR_AVERAGE))

instance {e a : Type} [DecidableEq e] [DecidableEq a] : DecidableEq (Except e a) :=
  fun x y =>
  match x, y with
  | .ok u, .ok v =>
    if h : u = v then isTrue (by rw [h]) else isFalse fun hh => h (Except.ok.inj hh)
  | .error u, .error v =>
    if h : u = v then isTrue (by rw [h]) else isFalse fun hh => h (Except.error.inj hh)
  | .ok _, .error _ => isFalse fun hh => Except.noConfusion hh
  | .error _, .ok _ => isFalse fun hh => Except.noConfusion hh

/-- An external call to the contract surface. -/
inductive Call
  | record (x : F64)
  | query

/-- Host-level semantics of one atomic call: an aborted call rolls back
every mutation, so it leaves the state unchanged; get_average_price takes
the state by shared reference and performs no mutation. -/
def exec (st : AveragePrice) : Call → AveragePrice
  | .record x =>
    match set_last_price st x with
    | .ok st2 => st2
    | .error _ => st
  | .query => st

/-- Executing a sequence of calls from a state. -/
def runCalls (st : AveragePrice) : List Call → AveragePrice
  | [] => st
  | c :: cs => runCalls (exec st c) cs

/-- The binary64 value 1.0. -/
def fone : F64 := ⟨false, 1023, 0⟩

/-- The binary64 value 2.0. -/
def ftwo : F64 := ⟨false, 1024, 0⟩

/-- The binary64 value -1.0, the sample the reference test
tests::set_negative_value feeds to set_last_price. -/
def negOne : F64 := ⟨true, 1023, 0⟩

/-- The five sample prices of the reference test tests::get_average, each
a decimal literal rounded to the nearest binary64 exactly as the Rust
compiler rounds the tokens 123.0, 124.1, 123.2345, 3453.1284, 123.23745. -/
def sampleLedger : List F64 :=
  [roundPos 1230 10, roundPos 1241 10, roundPos 1232345 10000,
    roundPos 34531284 10000, roundPos 12323745 100000]

/-- The five reference samples followed by a sixth record. -/
def sixLedger : List F64 := sampleLedger ++ [ftwo]

/-- The index loop of get_average_price never hits the None branch when
the accessed range lies inside the list, and it accumulates exactly the
contiguous slice of the list, in index order. -/
theorem sumIdx_ok (recs : List F64) :
    ∀ (c i : Nat) (acc : F64), i + c ≤ recs.length →
      sumIdx recs i c acc = .ok (((recs.drop i).take c).foldl fadd acc)
  | 0, i, acc, _ => by simp [sumIdx]
  | c + 1, i, acc, h => by
    have hi : i < recs.length := by omega
    rw [sumIdx, List.getElem?_eq_getElem hi,
      List.drop_eq_getElem_cons hi, List.take_succ_cons, List.foldl_cons]
    exact sumIdx_ok recs c (i + 1) (fadd acc recs[i]) (by omega)

/-- With at least LAST_NUMBERS_FOR_AVERAGE records, get_average_price
returns the fold of floating-point addition over the suffix of the last
LAST_NUMBERS_FOR_AVERAGE records, divided by that constant cast to f64. -/
theorem get_avg_of_ge (st : AveragePrice)
    (h : LAST_NUMBERS_FOR_AVERAGE ≤ st.records.length) :
    get_average_price st =
      .ok (fdiv (fsum (st.records.drop (st.records.length - LAST_NUMBERS_FOR_AVERAGE)))
        (natToF64 LAST_NUMBERS_FOR_AVERAGE)) := by
  have hnot : ¬ st.records.length < LAST_NUMBERS_FOR_AVERAGE := by omega
  have hs := sumIdx_ok st.records LAST_NUMBERS_FOR_AVERAGE
    (st.records.length - LAST_NUMBERS_FOR_AVERAGE) fzero (by omega)
  have htake : ((st.records.drop (st.records.length - LAST_NUMBERS_FOR_AVERAGE)).take
      LAST_NUMBERS_FOR_AVERAGE) = st.records.drop (st.records.length - LAST_NUMBERS_FOR_AVERAGE) := by
    apply List.take_of_length_le
    rw [List.length_drop]
    omega
  simp only [get_average_price, if_neg hnot]
  rw [hs, htake]
  rfl

/-- A single call either leaves the record list unchanged or extends it:
some suffix is appended, never removed. -/
theorem exec_extends (st : AveragePrice) (c : Call) :
    ∃ t, (exec st c).records = st.records ++ t := by
  cases c with
  | record x =>
    by_cases hn : is_normal x = true
    · exact ⟨[x], by simp [exec, set_last_price, hn]⟩
    · have hn2 : is_normal x = false := by simpa using hn
      exact ⟨[], by simp [exec, set_last_price, hn2]⟩
  | query => exact ⟨[], by simp [exec]⟩

/-- A whole sequence of calls only ever appends to the record list. -/
theorem runCalls_extends (cs : List Call) :
    ∀ st : AveragePrice, ∃ t, (runCalls st cs).records = st.records ++ t := by
  induction cs with
  | nil => intro st; exact ⟨[], by simp [runCalls]⟩
  | cons c cs ih =>
    intro st
    obtain ⟨t1, h1⟩ := exec_extends st c
    obtain ⟨t2, h2⟩ := ih (exec st c)
    exact ⟨t1 ++ t2, by rw [runCalls, h2, h1, List.append_assoc]⟩

/-- Claim C1: for every ledger with at least LAST_NUMBERS_FOR_AVERAGE = 5
records, get_average_price returns the arithmetic mean of exactly the
last 5 entries: the floating-point sum, in insertion order, of the
length-5 suffix of the ledger, divided by 5.0. Entries before that
suffix do not occur in the result, so after a sixth record the result
reflects only the last 5. -/
theorem trailing_average_uses_last_five (st : AveragePrice)
    (h : LAST_NUMBERS_FOR_AVERAGE ≤ st.records.length) :
    get_average_price st =
      .ok (fdiv (fsum (st.records.drop (st.records.length - LAST_NUMBERS_FOR_AVERAGE)))
        (natToF64 LAST_NUMBERS_FOR_AVERAGE)) :=
  get_avg_of_ge st h

/-- Witness for C1, at the six-record ledger of the spec scenario: the
result is the mean of the suffix that drops the oldest of the six. -/
theorem trailing_average_six_records :
    LAST_NUMBERS_FOR_AVERAGE ≤ (AveragePrice.mk sixLedger).records.length ∧
    get_average_price ⟨sixLedger⟩ =
      .ok (fdiv (fsum (sixLedger.drop (sixLedger.length - LAST_NUMBERS_FOR_AVERAGE)))
        (natToF64 LAST_NUMBERS_FOR_AVERAGE)) :=
  ⟨by decide, trailing_average_uses_last_five ⟨sixLedger⟩ (by decide)⟩

/-- Claim C6: validation is sign-agnostic. The value -1.0 is classified
normal, so set_last_price on -1.0 succeeds and appends the sample, for
every starting state, even though the reference test
tests::set_negative_value asserts a panic for -1.0. -/
theorem set_last_price_accepts_negative_one (st : AveragePrice) :
    is_normal negOne = true ∧
    set_last_price st negOne = .ok ⟨st.records ++ [negOne]⟩ := by
  have hn : is_normal negOne = true := by decide
  exact ⟨hn, by simp [set_last_price, hn]⟩

/-- Claim C8: get_average_price mutates nothing: as a call it leaves the
state unchanged, and calling it twice in a row yields the same result. -/
theorem query_average_no_mutation (st : AveragePrice) :
    exec st .query = st ∧
    get_average_price (exec st .query) = get_average_price st :=
  ⟨rfl, rfl⟩

/-- Claim C10: on the ledger holding exactly the five reference records
123.0, 124.1, 123.2345, 3453.1284, 123.23745 in that order,
get_average_price returns exactly the binary64 value of the literal
789.34007, reproducing tests::get_average bit for bit. -/
theorem get_average_reference_value :
    get_average_price ⟨sampleLedger⟩ = .ok (roundPos 78934007 100000) := by
  decide

/-- The four non-normal classes are exactly the values is_normal rejects. -/
theorem is_normal_false_of_special (x : F64)
    (h : is_nan x = true ∨ is_infinite x = true ∨ is_zero x = true ∨
      is_subnormal x = true) :
    is_normal x = false := by
  rcases h with h | h | h | h <;>
    simp only [is_nan, is_infinite, is_zero, is_subnormal, Bool.and_eq_true,
      beq_iff_eq, bne_iff_ne, ne_eq] at h <;>
    simp [is_normal, h.1]

/-- Claim C2: for every x that is NaN, infinite, zero or subnormal,
set_last_price aborts with the single rejection message and the call
leaves the state, hence the record count, unchanged. -/
theorem set_last_price_rejects_nonnormal (st : AveragePrice) (x : F64)
    (h : is_nan x = true ∨ is_infinite x = true ∨ is_zero x = true ∨
      is_subnormal x = true) :
    set_last_price st x = .error .rejection ∧ exec st (.record x) = st := by
  have hn := is_normal_false_of_special x h
  exact ⟨by simp [set_last_price, hn], by simp [exec, set_last_price, hn]⟩

/-- Witness for C2, at NaN and the empty state. -/
theorem set_last_price_rejects_nan_concrete :
    is_nan fnan = true ∧
    set_last_price ⟨[]⟩ fnan = .error .rejection ∧ exec ⟨[]⟩ (.record fnan) = ⟨[]⟩ := by
  have h := set_last_price_rejects_nonnormal ⟨[]⟩ fnan (Or.inl (by decide))
  exact ⟨by decide, h.1, h.2⟩

/-- Claim C3: for every x that is finite, nonzero and not subnormal,
set_last_price succeeds, the record count grows by exactly one, and the
new last element is x. -/
theorem set_last_price_accepts_normal (st : AveragePrice) (x : F64)
    (hf : is_finite x = true) (hz : is_zero x = false)
    (hs : is_subnormal x = false) :
    ∃ st2, set_last_price st x = .ok st2 ∧
      st2.records.length = st.records.length + 1 ∧
      st2.records.getLast? = some x := by
  have hfin : x.ex ≠ 2047 := by simpa [is_finite] using hf
  have hex : x.ex ≠ 0 := by
    intro h0
    by_cases hf0 : x.frac = 0
    · simp [is_zero, h0, hf0] at hz
    · simp [is_subnormal, h0, hf0] at hs
  have hn : is_normal x = true := by simp [is_normal, hex, hfin]
  refine ⟨⟨st.records ++ [x]⟩, by simp [set_last_price, hn], by simp, ?_⟩
  exact List.getLast?_concat _

/-- Witness for C3, recording 2.0 on the empty state. -/
theorem set_last_price_accepts_two_concrete :
    is_finite ftwo = true ∧ is_zero ftwo = false ∧ is_subnormal ftwo = false ∧
    ∃ st2, set_last_price ⟨[]⟩ ftwo = .ok st2 ∧
      st2.records.length = (AveragePrice.mk []).records.length + 1 ∧
      st2.records.getLast? = some ftwo :=
  ⟨by decide, by decide, by decide,
    set_last_price_accepts_normal ⟨[]⟩ ftwo (by decide) (by decide) (by decide)⟩

/-- Claim C5: on a non-empty ledger with fewer than 5 records whose
floating-point sum is not exactly zero, get_average_price returns the
sum of all entries divided by the record count cast to f64. -/
theorem average_under_window_divides_by_length (st : AveragePrice)
    (_hne : st.records ≠ [])
    (hlt : st.records.length < LAST_NUMBERS_FOR_AVERAGE)
    (hz : is_zero (fsum st.records) = false) :
    get_average_price st = .ok (fdiv (fsum st.records) (natToF64 st.records.length)) := by
  simp only [get_average_price, if_pos hlt]
  simp [hz]

/-- Witness for C5, on the singleton ledger holding 1.0. -/
theorem average_single_record_concrete :
    (AveragePrice.mk [fone]).records ≠ [] ∧
    get_average_price ⟨[fone]⟩ = .ok (fdiv (fsum [fone]) (natToF64 1)) :=
  ⟨by decide,
    average_under_window_divides_by_length ⟨[fone]⟩ (by decide) (by decide) (by decide)⟩

/-- Claim C4: get_average_price aborts with the no-records message
exactly when the ledger is empty or holds fewer than 5 records summing
to exactly 0.0; with at least 5 records it always returns a value. -/
theorem noRecords_iff_empty_or_zero_sum (st : AveragePrice) :
    (get_average_price st = .error .noRecords ↔
      st.records = [] ∨ (st.records.length < LAST_NUMBERS_FOR_AVERAGE ∧
        is_zero (fsum st.records) = true)) ∧
    (LAST_NUMBERS_FOR_AVERAGE ≤ st.records.length →
      ∃ v, get_average_price st = .ok v) := by
  constructor
  · by_cases hlt : st.records.length < LAST_NUMBERS_FOR_AVERAGE
    · simp only [get_average_price, if_pos hlt]
      by_cases hz : is_zero (fsum st.records) = true
      · simp only [hz, if_pos rfl]
        simp [hlt, hz]
      · have hz2 : is_zero (fsum st.records) = false := by simpa using hz
        simp only [hz2]
        constructor
        · intro h; simp at h
        · rintro (hemp | ⟨_, hzz⟩)
          · rw [hemp] at hz2
            exact absurd hz2 (by decide)
          · exact absurd hzz (by simp [hz2])
    · have hge : LAST_NUMBERS_FOR_AVERAGE ≤ st.records.length := by omega
      rw [get_avg_of_ge st hge]
      constructor
      · intro h; cases h
      · rintro (hemp | ⟨hl, _⟩)
        · rw [hemp] at hge; cases hge
        · exact absurd hl hlt
  · intro hge
    exact ⟨_, get_avg_of_ge st hge⟩

/-- Witness for C4, at the five-record reference ledger: the second
conjunct applies, so a value is returned. -/
theorem noRecords_unreachable_at_five_concrete :
    ∃ v, get_average_price ⟨sampleLedger⟩ = .ok v :=
  (noRecords_iff_empty_or_zero_sum ⟨sampleLedger⟩).2 (by decide)

/-- Claim C7: across any sequence of calls, the record count never
decreases and every already-stored index keeps its value. -/
theorem ledger_length_monotone_and_immutable (st : AveragePrice) (cs : List Call) :
    st.records.length ≤ (runCalls st cs).records.length ∧
    ∀ i, i < st.records.length → (runCalls st cs).records[i]? = st.records[i]? := by
  obtain ⟨t, ht⟩ := runCalls_extends cs st
  constructor
  · rw [ht, List.length_append]; omega
  · intro i hi
    rw [ht, List.getElem?_append, if_pos hi]

/-- Witness for C7: after a record, a query and a rejected record, the
first stored sample is still at index 0. -/
theorem ledger_monotone_concrete :
    (AveragePrice.mk [fone]).records.length ≤
      (runCalls ⟨[fone]⟩ [.record ftwo, .query, .record fnan]).records.length ∧
    (runCalls ⟨[fone]⟩ [.record ftwo, .query, .record fnan]).records[0]? =
      (AveragePrice.mk [fone]).records[0]? :=
  ⟨(ledger_length_monotone_and_immutable ⟨[fone]⟩ [.record ftwo, .query, .record fnan]).1,
    (ledger_length_monotone_and_immutable ⟨[fone]⟩ [.record ftwo, .query, .record fnan]).2
      0 (by decide)⟩

/-- Claim C9: with at least 5 records the index loop accesses only
indices below the length, so the Vector lookup always yields a value and
the defensive out-of-bounds abort never fires. -/
theorem outOfRange_unreachable (st : AveragePrice)
    (h : LAST_NUMBERS_FOR_AVERAGE ≤ st.records.length) :
    (∃ acc, sumIdx st.records (st.records.length - LAST_NUMBERS_FOR_AVERAGE)
        LAST_NUMBERS_FOR_AVERAGE fzero = .ok acc) ∧
    get_average_price st ≠ .error .outOfRange := by
  refine ⟨⟨_, sumIdx_ok st.records LAST_NUMBERS_FOR_AVERAGE
    (st.records.length - LAST_NUMBERS_FOR_AVERAGE) fzero (by omega)⟩, ?_⟩
  rw [get_avg_of_ge st h]
  intro hc
  cases hc

/-- Witness for C9, at the five-record reference ledger. -/
theorem outOfRange_unreachable_concrete :
    (∃ acc, sumIdx (AveragePrice.mk sampleLedger).records
        ((AveragePrice.mk sampleLedger).records.length - LAST_NUMBERS_FOR_AVERAGE)
        LAST_NUMBERS_FOR_AVERAGE fzero = .ok acc) ∧
    get_average_price ⟨sampleLedger⟩ ≠ .error .outOfRange :=
  outOfRange_unreachable ⟨sampleLedger⟩ (by decide)

end AvgPrice
